import Mathlib

/-!
# yurt-edgex-manager: the EdgeX collector

A shallow embedding of `tools/collector/edgex/collect.go` and theorems about it.

Go strings are modelled as Lean strings, Go slices as lists, Go `int` as `Int`.
A slice access out of range (a run-time panic in Go) is modelled by `none`.
-/

namespace Edgex

/-! ## Library functions the collector calls -/

/-- Splitting a list of characters at every occurrence of the separator `c`:
the pieces between the separators, in order; there is always at least one piece. -/
def splitChars (c : Char) : List Char → List (List Char)
  | [] => [[]]
  | x :: xs =>
    if x = c then [] :: splitChars c xs
    else
      match splitChars c xs with
      | [] => [[x]]
      | seg :: rest => (x :: seg) :: rest

/-- Go `strings.Split(s, sep)` for a separator of one character (the collector
only calls it with ":" and "/"). -/
def Split (s : String) (sep : Char) : List String :=
  (splitChars sep s.data).map String.mk

/-- Go `strings.Contains(s, sep)` for a separator of one character. -/
def Contains (s : String) (sep : Char) : Bool :=
  s.data.contains sep

/-! ## Data model -/

/-- One container of a component's deployment template; only its image matters here. -/
structure Container where
  Image : String
  deriving DecidableEq, Repr

/-- Modelled from the spec: a Component, whose type declaration is not in the
sources, with its top-level `image` and the container list of
`Deployment.Template.Spec.Containers`. -/
structure Component where
  image : String
  Containers : List Container
  deriving DecidableEq, Repr

/-- Modelled from the spec: a Version, whose type declaration is not in the
sources: a name, its components and its (opaque) configuration entries. -/
structure Version where
  Name : String
  Components : List Component
  ConfigMaps : List String
  deriving DecidableEq, Repr

/-- Modelled from the spec: an EdgeXConfig, whose type declaration is not in the
sources: the ordered versions of one architecture and security mode. -/
structure EdgeXConfig where
  Versions : List Version
  deriving DecidableEq, Repr

/-- Modelled from the spec: the persisted Manifest, whose type declaration is
not in the sources. `Updated` is the string "true" or "false". -/
structure Manifest where
  Updated : String
  Count : Int
  LatestVersion : String
  Versions : List String
  deriving DecidableEq, Repr

/-- Modelled from the spec: `NewManifest`, which is not in the sources: a
manifest with no versions, an empty latest version, count 0, not updated. -/
def NewManifest : Manifest :=
  { Updated := "false", Count := 0, LatestVersion := "", Versions := [] }

/-- Modelled from the spec: `newEdgeXConfig`, which is not in the sources: a
configuration with no versions. -/
def newEdgeXConfig : EdgeXConfig := { Versions := [] }

/-- Modelled from the spec: `stringIsInArray`, which is not in the sources:
whether `target` is present in `array`. -/
def stringIsInArray (target : String) : List String → Bool
  | [] => false
  | e :: rest => if target = e then true else stringIsInArray target rest

/-! ## CollectVersionToManifest (collect.go, lines 145-169) -/

/-- One iteration of the loop of lines 152-157. -/
def CollectVersionToManifest.step (oldManifest : Manifest) (manifest : Manifest)
    (version : String) : Manifest :=
  let manifest := { manifest with Versions := manifest.Versions ++ [version] }
  if !stringIsInArray version oldManifest.Versions then
    { manifest with LatestVersion := version }
  else manifest

/-- The function `CollectVersionToManifest`. -/
def CollectVersionToManifest (versionList : List Version) (oldManifest : Manifest) : Manifest :=
  let versions := versionList.foldl (fun versions v => versions ++ [v.Name]) []
  let manifest := NewManifest
  let manifest := versions.foldl (CollectVersionToManifest.step oldManifest) manifest
  let manifest :=
    if manifest.LatestVersion = "" then
      { manifest with LatestVersion := oldManifest.LatestVersion }
    else manifest
  let manifest := { manifest with Count := (manifest.Versions.length : Int) }
  if oldManifest.Count < (manifest.Versions.length : Int) then
    { manifest with Updated := "true" }
  else
    { manifest with Updated := "false" }

/-! ## CollectEdgeXConfig (collect.go, lines 51-76) -/

/-- The errors the per-version capture can report: the two sentinels the
collector compares against, and any other error. -/
inductive CatchError where
  | ErrConfigFileNotFound
  | ErrVersionNotAdapted
  | other (msg : String)
  deriving DecidableEq, Repr

/-- Modelled from the spec: what the per-version capture (the method
`version.catch`, which is not in the sources) leaves behind: the components and
configuration entries it stored in the version, and the error it returned. -/
structure CatchOutcome where
  Components : List Component
  ConfigMaps : List String
  err : Option CatchError
  deriving DecidableEq, Repr

/-- Modelled from the spec: `newVersion`, which is not in the sources: a version
with the given name and nothing captured yet. -/
def newVersion (versionName : String) : Version :=
  { Name := versionName, Components := [], ConfigMaps := [] }

/-- One iteration of the loop of lines 57-73. `capture versionName isSecurity arch`
is the outcome of `version.catch(isSecurity, arch)` on the version of that name. -/
def CollectEdgeXConfig.step (capture : String → Bool → String → CatchOutcome)
    (isSecurity : Bool) (arch : String) (edgeXConfig : EdgeXConfig)
    (versionName : String) : EdgeXConfig :=
  if versionName = "main" then edgeXConfig
  else
    let version := newVersion versionName
    let outcome := capture versionName isSecurity arch
    let version :=
      { version with Components := outcome.Components, ConfigMaps := outcome.ConfigMaps }
    let err := outcome.err
    if err ≠ none ∧ err = some CatchError.ErrConfigFileNotFound then edgeXConfig
    else if err ≠ none ∧ err = some CatchError.ErrVersionNotAdapted then edgeXConfig
    else { edgeXConfig with Versions := edgeXConfig.Versions ++ [version] }

/-- The function `CollectEdgeXConfig`: the configuration and the error it returns
(`none` is Go's `nil`). -/
def CollectEdgeXConfig (capture : String → Bool → String → CatchOutcome)
    (versionsInfo : List String) (isSecurity : Bool) (arch : String) :
    EdgeXConfig × Option CatchError :=
  let edgeXConfig := newEdgeXConfig
  let edgeXConfig := versionsInfo.foldl (CollectEdgeXConfig.step capture isSecurity arch) edgeXConfig
  (edgeXConfig, none)

/-! ## CollectImages (collect.go, lines 78-119) -/

/-- Go's `s[i]` for an `int` index; `none` is the index-out-of-range panic. -/
def index {α : Type} (s : List α) (i : Int) : Option α :=
  if 0 ≤ i then s[i.toNat]? else none

/-- Go's `s[:n]`; `none` is the slice-bounds-out-of-range panic. -/
def sliceTo {α : Type} (s : List α) (n : Int) : Option (List α) :=
  if 0 ≤ n ∧ n ≤ (s.length : Int) then some (s.take n.toNat) else none

/-- Go's `s[i] = v` for an `int` index; `none` is the index-out-of-range panic. -/
def assign {α : Type} (s : List α) (i : Int) (v : α) : Option (List α) :=
  if 0 ≤ i ∧ i < (s.length : Int) then some (s.set i.toNat v) else none

/-- The two output files, each as the sequence of chunks flushed to it. -/
structure ImageLists where
  single : List String
  multi : List String
  deriving DecidableEq, Repr

/-- How a run of `CollectImages` ends: it returns an error value (`none` is
`nil`) with the two files as written, or it panics on an index out of range. -/
inductive CollectImagesResult where
  | returned (err : Option String) (lists : ImageLists)
  | indexOutOfRange
  deriving DecidableEq, Repr

/-- The loop of lines 95-99: the stripped images of the secondary architecture,
for the component indices of the default architecture's version `i`. -/
def CollectImages.newArray (versionsArm : List Version) (i : Nat)
    (components : List Component) : Option (List String) :=
  (List.range components.length).foldlM
    (fun (newArray : List String) (j : Nat) => do
      let versionArm ← index versionsArm (i : Int)
      let componentArm ← index versionArm.Components (j : Int)
      let imgSplit ← index (Split componentArm.image ':') 0
      pure (newArray ++ [imgSplit]))
    []

/-- Lines 104-109: what is written to the single-arch file for `image`, up to
the flush. `imagePre` shares its storage with `imgArr`, so the assignment of
line 107 is made to both. -/
def CollectImages.singleArchLine (image : String) : Option String := do
  let imgArr := Split image ':'
  let imagePre ← sliceTo imgArr ((imgArr.length : Int) - 1)
  let last ← index imagePre ((imagePre.length : Int) - 1)
  let imgArr ← assign imgArr ((imagePre.length : Int) - 1) (last ++ "-arm64")
  let imagePre ← assign imagePre ((imagePre.length : Int) - 1) (last ++ "-arm64")
  let first ← index imagePre 0
  let tag ← index imgArr ((imgArr.length : Int) - 1)
  pure ((image ++ " ") ++ (" " ++ first ++ ":" ++ tag) ++ "\n")

/-- The body of the loop of lines 101-116, for one component. -/
def CollectImages.component (newArray : List String) (lists : ImageLists)
    (component : Component) : Option ImageLists := do
  let image := component.image
  let stripped ← index (Split image ':') 0
  if !stringIsInArray stripped newArray then
    let line ← CollectImages.singleArchLine image
    pure { lists with single := lists.single ++ [line] }
  else
    pure { lists with multi := lists.multi ++ [image ++ "\n"] }

/-- The body of the loop of lines 93-117, for the version at index `i`. -/
def CollectImages.version (versionsArm : List Version) (lists : ImageLists)
    (i : Nat) (version : Version) : Option ImageLists := do
  let components := version.Components
  let newArray ← CollectImages.newArray versionsArm i components
  components.foldlM (CollectImages.component newArray) lists

/-- The function `CollectImages`. `createSingle` and `createMulti` are the errors
of the two `os.Create` calls (`none` when the file was created). -/
def CollectImages (createSingle createMulti : Option String)
    (edgexConfig edgeXConfigArm : EdgeXConfig) : CollectImagesResult :=
  match createSingle with
  | some err => CollectImagesResult.returned (some err) ⟨[], []⟩
  | none =>
    match createMulti with
    | some err => CollectImagesResult.returned (some err) ⟨[], []⟩
    | none =>
      let versions := edgexConfig.Versions
      let versionsArm := edgeXConfigArm.Versions
      match versions.enum.foldlM
          (fun lists iv => CollectImages.version versionsArm lists iv.1 iv.2) ⟨[], []⟩ with
      | some lists => CollectImagesResult.returned none lists
      | none => CollectImagesResult.indexOutOfRange

/-! ## ModifyImagesName (collect.go, lines 121-143) -/

/-- The rewrite of one image reference: lines 127-131 for the top-level image,
and the same expression at lines 135-139 for each container image. The index 1
is in range whenever the reference contains "/" (`Split_length_of_Contains`). -/
def ModifyImagesName.image (repo image : String) : String :=
  if Contains image '/' then repo ++ "/" ++ (Split image '/').getD 1 ""
  else repo ++ "/" ++ image

/-- The function `ModifyImagesName`; the configuration after the in-place update. -/
def ModifyImagesName (edgexConfig : EdgeXConfig) (repo : String) : EdgeXConfig :=
  { Versions := edgexConfig.Versions.map fun version =>
      { version with
        Components := version.Components.map fun component =>
          { image := ModifyImagesName.image repo component.image
            Containers := component.Containers.map fun container =>
              { Image := ModifyImagesName.image repo container.Image } } } }

/-! ## Expressions named for the statements -/

/-- The discovered names that are absent from the old manifest, in discovery order. -/
def newNames (names old : List String) : List String :=
  names.filter (fun n => decide (n ∉ old))

/-- The expression `strings.Split(image, ":")[0]` of lines 97 and 103: the image
reference with its tag removed. Index 0 always exists (`index_zero_Split`). -/
def stripTag (image : String) : String :=
  (Split image ':').headD ""

/-- A default-architecture configuration with one version of two components. -/
def exampleConfig : EdgeXConfig :=
  ⟨[⟨"jakarta", [⟨"edgexfoundry/core-data:2.1.0", []⟩,
                  ⟨"edgexfoundry/device-virtual:2.1.0", []⟩], []⟩]⟩

/-- A secondary-architecture configuration aligned with `exampleConfig`; its
second component has another image. -/
def exampleConfigArm : EdgeXConfig :=
  ⟨[⟨"jakarta", [⟨"edgexfoundry/core-data:2.1.0", []⟩,
                  ⟨"edgexfoundry/device-rest:2.1.0", []⟩], []⟩]⟩

/-- A secondary-architecture configuration with one component fewer than
`exampleConfig` in its only version. -/
def exampleConfigArmShort : EdgeXConfig :=
  ⟨[⟨"jakarta", [⟨"edgexfoundry/core-data:2.1.0", []⟩], []⟩]⟩

/-! ## Auxiliary lemmas -/

theorem stringIsInArray_iff (target : String) (array : List String) :
    stringIsInArray target array = true ↔ target ∈ array := by
  induction array with
  | nil => simp [stringIsInArray]
  | cons e rest ih =>
    by_cases h : target = e
    · simp [stringIsInArray, h]
    · simp [stringIsInArray, h, ih]

theorem stringIsInArray_eq_false_iff (target : String) (array : List String) :
    stringIsInArray target array = false ↔ target ∉ array := by
  rw [← stringIsInArray_iff]; simp

theorem names_foldl (versionList : List Version) (acc : List String) :
    versionList.foldl (fun versions v => versions ++ [v.Name]) acc
      = acc ++ versionList.map (fun v => v.Name) := by
  induction versionList generalizing acc with
  | nil => simp
  | cons v vs ih => simp [ih]

theorem getLast?_cons_getD {α : Type} (x d : α) (l : List α) :
    ((x :: l).getLast?).getD d = (l.getLast?).getD x := by
  cases l with
  | nil => simp
  | cons y ys =>
    rw [List.getLast?_cons_cons]
    cases h : (y :: ys).getLast? with
    | none => simp at h
    | some z => rfl

theorem step_foldl (oldManifest manifest : Manifest) (versions : List String) :
    versions.foldl (CollectVersionToManifest.step oldManifest) manifest
      = { manifest with
          Versions := manifest.Versions ++ versions
          LatestVersion :=
            ((newNames versions oldManifest.Versions).getLast?).getD manifest.LatestVersion } := by
  induction versions generalizing manifest with
  | nil => simp [newNames]
  | cons x xs ih =>
    rw [List.foldl_cons, ih]
    by_cases hx : x ∈ oldManifest.Versions
    · have h1 : stringIsInArray x oldManifest.Versions = true := (stringIsInArray_iff _ _).2 hx
      simp [CollectVersionToManifest.step, h1, newNames, hx]
    · have h1 : stringIsInArray x oldManifest.Versions = false :=
        (stringIsInArray_eq_false_iff _ _).2 hx
      simp [CollectVersionToManifest.step, h1, newNames, hx, getLast?_cons_getD]

/-- What `CollectVersionToManifest` returns, field by field. -/
theorem CollectVersionToManifest_eq (versionList : List Version) (oldManifest : Manifest) :
    CollectVersionToManifest versionList oldManifest
      = { Updated :=
            if oldManifest.Count < ((versionList.map (fun v => v.Name)).length : Int)
            then "true" else "false"
          Count := ((versionList.map (fun v => v.Name)).length : Int)
          LatestVersion :=
            if ((newNames (versionList.map (fun v => v.Name)) oldManifest.Versions).getLast?).getD ""
                = ""
            then oldManifest.LatestVersion
            else ((newNames (versionList.map (fun v => v.Name)) oldManifest.Versions).getLast?).getD ""
          Versions := versionList.map (fun v => v.Name) } := by
  simp only [CollectVersionToManifest, names_foldl, step_foldl, NewManifest, List.nil_append]
  split_ifs <;> rfl

theorem newNames_eq_nil_iff (names old : List String) :
    newNames names old = [] ↔ ∀ n ∈ names, n ∈ old := by
  simp [newNames, List.filter_eq_nil_iff]

theorem length_lt_iff_exists_new (names old : List String) (hold : old.Nodup)
    (hnames : names.Nodup) (hsub : ∀ n ∈ old, n ∈ names) :
    old.length < names.length ↔ ∃ n ∈ names, n ∉ old := by
  constructor
  · intro hlt
    by_contra hcon
    push_neg at hcon
    have hle : names.length ≤ old.length :=
      (List.subperm_of_subset hnames hcon).length_le
    omega
  · rintro ⟨n, hn, hno⟩
    have hsp : List.Subperm old names := List.subperm_of_subset hold hsub
    by_contra hcon
    have hperm : List.Perm old names := hsp.perm_of_length_le (by omega)
    exact hno (hperm.mem_iff.2 hn)

/-! ## Theorems about CollectVersionToManifest -/

/-- C2, as stated, fails: with old versions [v1] and the discovered names
v1, v2, v3, the first discovered name absent from the old manifest is v2, but
the latestVersion returned is v3. -/
theorem CollectVersionToManifest_latest_not_first_new :
    ("v2" ∈ ["v1", "v2", "v3"] ∧ "v2" ∉ ["v1"]) ∧
    (["v1", "v2", "v3"].filter (fun n => decide (n ∉ ["v1"]))).head? = some "v2" ∧
    (CollectVersionToManifest
        [⟨"v1", [], []⟩, ⟨"v2", [], []⟩, ⟨"v3", [], []⟩]
        ⟨"false", 1, "v1", ["v1"]⟩).LatestVersion = "v3" ∧
    "v3" ≠ "v2" := by
  decide

/-- C2, amended: when the last discovered name that is absent from the old
manifest's versions is not the empty string, it is the latestVersion of the
manifest returned by CollectVersionToManifest. -/
theorem CollectVersionToManifest_latest_is_last_new (versionList : List Version)
    (oldManifest : Manifest) (v : String)
    (hlast : ((versionList.map (fun x => x.Name)).filter
        (fun n => decide (n ∉ oldManifest.Versions))).getLast? = some v)
    (hv : v ≠ "") :
    (CollectVersionToManifest versionList oldManifest).LatestVersion = v := by
  rw [CollectVersionToManifest_eq]
  have h : (newNames (versionList.map (fun x => x.Name)) oldManifest.Versions).getLast?
      = some v := hlast
  simp [h, hv]

theorem CollectVersionToManifest_latest_is_last_new_witness :
    (CollectVersionToManifest
        [⟨"v1", [], []⟩, ⟨"v2", [], []⟩, ⟨"v3", [], []⟩]
        ⟨"false", 1, "v1", ["v1"]⟩).LatestVersion = "v3" :=
  CollectVersionToManifest_latest_is_last_new
    [⟨"v1", [], []⟩, ⟨"v2", [], []⟩, ⟨"v3", [], []⟩] ⟨"false", 1, "v1", ["v1"]⟩ "v3"
    (by decide) (by decide)

/-- C7, as stated, fails: with old versions [v1] (latest v1) and the discovered
names v2 and the empty name, a discovered name is new, yet the returned
latestVersion is v1, which is not a member of the returned versions. -/
theorem CollectVersionToManifest_latest_not_member :
    ¬ ((CollectVersionToManifest [⟨"v2", [], []⟩, ⟨"", [], []⟩]
            ⟨"false", 1, "v1", ["v1"]⟩).LatestVersion
          ∈ (CollectVersionToManifest [⟨"v2", [], []⟩, ⟨"", [], []⟩]
            ⟨"false", 1, "v1", ["v1"]⟩).Versions
        ∨ ((∀ n ∈ ["v2", ""], n ∈ ["v1"]) ∧
            (CollectVersionToManifest [⟨"v2", [], []⟩, ⟨"", [], []⟩]
              ⟨"false", 1, "v1", ["v1"]⟩).LatestVersion = "v1")) := by
  decide

/-- C7, amended: unless the last discovered name that is absent from the old
manifest's versions is the empty string, the latestVersion returned by
CollectVersionToManifest is a member of the returned versions list, or else no
discovered name is new and latestVersion equals the old manifest's latestVersion. -/
theorem CollectVersionToManifest_latest_member_or_old (versionList : List Version)
    (oldManifest : Manifest)
    (hne : ((versionList.map (fun x => x.Name)).filter
        (fun n => decide (n ∉ oldManifest.Versions))).getLast? ≠ some "") :
    (CollectVersionToManifest versionList oldManifest).LatestVersion
        ∈ (CollectVersionToManifest versionList oldManifest).Versions
      ∨ ((∀ n ∈ versionList.map (fun x => x.Name), n ∈ oldManifest.Versions) ∧
          (CollectVersionToManifest versionList oldManifest).LatestVersion
            = oldManifest.LatestVersion) := by
  rw [CollectVersionToManifest_eq]
  have hne2 : (newNames (versionList.map (fun x => x.Name)) oldManifest.Versions).getLast?
      ≠ some "" := hne
  cases h : (newNames (versionList.map (fun x => x.Name)) oldManifest.Versions).getLast? with
  | none =>
    right
    rw [List.getLast?_eq_none_iff, newNames_eq_nil_iff] at h
    exact ⟨h, by simp⟩
  | some v =>
    left
    have hv : v ≠ "" := by
      intro hv
      exact hne2 (by rw [h, hv])
    have hmem : v ∈ newNames (versionList.map (fun x => x.Name)) oldManifest.Versions :=
      List.mem_of_getLast?_eq_some h
    have hmem2 : v ∈ versionList.map (fun x => x.Name) := by
      unfold newNames at hmem
      exact (List.mem_filter.1 hmem).1
    simpa [hv] using hmem2

theorem CollectVersionToManifest_latest_member_or_old_witness :
    (CollectVersionToManifest [⟨"v1", [], []⟩, ⟨"v2", [], []⟩] ⟨"false", 1, "v1", ["v1"]⟩).LatestVersion
        ∈ (CollectVersionToManifest [⟨"v1", [], []⟩, ⟨"v2", [], []⟩]
            ⟨"false", 1, "v1", ["v1"]⟩).Versions
      ∨ ((∀ n ∈ [(⟨"v1", [], []⟩ : Version), ⟨"v2", [], []⟩].map (fun x => x.Name),
            n ∈ (⟨"false", 1, "v1", ["v1"]⟩ : Manifest).Versions) ∧
          (CollectVersionToManifest [⟨"v1", [], []⟩, ⟨"v2", [], []⟩]
              ⟨"false", 1, "v1", ["v1"]⟩).LatestVersion
            = (⟨"false", 1, "v1", ["v1"]⟩ : Manifest).LatestVersion) :=
  CollectVersionToManifest_latest_member_or_old
    [⟨"v1", [], []⟩, ⟨"v2", [], []⟩] ⟨"false", 1, "v1", ["v1"]⟩ (by decide)

/-- C8: for an old manifest whose count is the length of its pairwise distinct
versions, and pairwise distinct discovered names that contain every old version,
CollectVersionToManifest sets updated to "true" if and only if some discovered
name is absent from the old manifest's versions, and to "false" otherwise. -/
theorem CollectVersionToManifest_updated_iff_new (versionList : List Version)
    (oldManifest : Manifest)
    (hcount : oldManifest.Count = (oldManifest.Versions.length : Int))
    (hold : oldManifest.Versions.Nodup)
    (hnames : (versionList.map (fun x => x.Name)).Nodup)
    (hsub : ∀ n ∈ oldManifest.Versions, n ∈ versionList.map (fun x => x.Name)) :
    ((CollectVersionToManifest versionList oldManifest).Updated = "true"
        ↔ ∃ n ∈ versionList.map (fun x => x.Name), n ∉ oldManifest.Versions) ∧
    ((CollectVersionToManifest versionList oldManifest).Updated = "false"
        ↔ ¬ ∃ n ∈ versionList.map (fun x => x.Name), n ∉ oldManifest.Versions) := by
  rw [CollectVersionToManifest_eq, ← length_lt_iff_exists_new _ _ hold hnames hsub, hcount]
  by_cases h : oldManifest.Versions.length < (versionList.map (fun x => x.Name)).length
  · have h2 : (oldManifest.Versions.length : Int)
        < ((versionList.map (fun x => x.Name)).length : Int) := by exact_mod_cast h
    simp only [h2, if_true, h]
    decide
  · have h2 : ¬ (oldManifest.Versions.length : Int)
        < ((versionList.map (fun x => x.Name)).length : Int) := by exact_mod_cast h
    simp only [h2, if_false, h]
    decide

theorem CollectVersionToManifest_updated_iff_new_witness :
    ((CollectVersionToManifest [⟨"v1", [], []⟩, ⟨"v2", [], []⟩, ⟨"v3", [], []⟩]
          ⟨"false", 2, "v2", ["v1", "v2"]⟩).Updated = "true"
        ↔ ∃ n ∈ [(⟨"v1", [], []⟩ : Version), ⟨"v2", [], []⟩, ⟨"v3", [], []⟩].map
            (fun x => x.Name), n ∉ (⟨"false", 2, "v2", ["v1", "v2"]⟩ : Manifest).Versions) ∧
    ((CollectVersionToManifest [⟨"v1", [], []⟩, ⟨"v2", [], []⟩, ⟨"v3", [], []⟩]
          ⟨"false", 2, "v2", ["v1", "v2"]⟩).Updated = "false"
        ↔ ¬ ∃ n ∈ [(⟨"v1", [], []⟩ : Version), ⟨"v2", [], []⟩, ⟨"v3", [], []⟩].map
            (fun x => x.Name), n ∉ (⟨"false", 2, "v2", ["v1", "v2"]⟩ : Manifest).Versions) :=
  CollectVersionToManifest_updated_iff_new
    [⟨"v1", [], []⟩, ⟨"v2", [], []⟩, ⟨"v3", [], []⟩] ⟨"false", 2, "v2", ["v1", "v2"]⟩
    (by decide) (by decide) (by decide) (by decide)

/-- C9: running CollectVersionToManifest on the same discovered list against its
own previous result gives the same versions, the same latestVersion and the
same count as that result, with updated equal to "false". -/
theorem CollectVersionToManifest_idempotent (versionList : List Version)
    (oldManifest : Manifest) :
    CollectVersionToManifest versionList (CollectVersionToManifest versionList oldManifest)
      = { CollectVersionToManifest versionList oldManifest with Updated := "false" } := by
  have hnil : newNames (versionList.map (fun x => x.Name))
      (CollectVersionToManifest versionList oldManifest).Versions = [] := by
    rw [newNames_eq_nil_iff, CollectVersionToManifest_eq]
    intro n hn
    exact hn
  rw [CollectVersionToManifest_eq versionList (CollectVersionToManifest versionList oldManifest),
    hnil]
  simp [CollectVersionToManifest_eq]

/-! ## Lemmas about splitting -/

theorem splitChars_ne_nil (c : Char) (l : List Char) : splitChars c l ≠ [] := by
  induction l with
  | nil => simp [splitChars]
  | cons x xs ih =>
    unfold splitChars
    split_ifs
    · simp
    · split <;> simp

theorem splitChars_of_not_mem (c : Char) (a : List Char) (h : c ∉ a) :
    splitChars c a = [a] := by
  induction a with
  | nil => rfl
  | cons x xs ih =>
    have hx : x ≠ c := fun e => h (by simp [e])
    have hxs : c ∉ xs := fun e => h (List.mem_cons_of_mem _ e)
    simp [splitChars, hx, ih hxs]

theorem splitChars_append (c : Char) (a rest : List Char) (h : c ∉ a) :
    splitChars c (a ++ c :: rest) = a :: splitChars c rest := by
  induction a with
  | nil => simp [splitChars]
  | cons x xs ih =>
    have hx : x ≠ c := fun e => h (by simp [e])
    have hxs : c ∉ xs := fun e => h (List.mem_cons_of_mem _ e)
    simp [splitChars, hx, ih hxs]

theorem splitChars_pieces (c : Char) (l : List Char) :
    ∀ p ∈ splitChars c l, c ∉ p := by
  induction l with
  | nil => simp [splitChars]
  | cons x xs ih =>
    unfold splitChars
    split_ifs with hx
    · intro p hp
      rcases List.mem_cons.1 hp with rfl | hp
      · simp
      · exact ih p hp
    · split
      · intro p hp
        simp only [List.mem_singleton] at hp
        subst hp
        simpa using fun e : c = x => hx e.symm
      · rename_i seg rest heq
        intro p hp
        rcases List.mem_cons.1 hp with rfl | hp
        · have hseg : c ∉ seg := ih seg (by rw [heq]; simp)
          intro hmem
          rcases List.mem_cons.1 hmem with e | e
          · exact hx e.symm
          · exact hseg e
        · exact ih p (by rw [heq]; exact List.mem_cons_of_mem _ hp)

theorem splitChars_length_of_mem (c : Char) (l : List Char) (h : c ∈ l) :
    2 ≤ (splitChars c l).length := by
  induction l with
  | nil => simp at h
  | cons x xs ih =>
    unfold splitChars
    split_ifs with hx
    · have := List.length_pos.2 (splitChars_ne_nil c xs)
      simp only [List.length_cons]
      omega
    · have hxs : c ∈ xs := by
        rcases List.mem_cons.1 h with e | e
        · exact absurd e.symm hx
        · exact e
      have ih2 := ih hxs
      split
      · rename_i heq
        exact absurd heq (splitChars_ne_nil c xs)
      · rename_i seg rest heq
        rw [heq] at ih2
        simpa using ih2

/-- The index 1 of `ModifyImagesName.image` is in range: a reference that
contains the separator splits into at least two pieces. -/
theorem Split_length_of_Contains (s : String) (sep : Char) (h : Contains s sep = true) :
    2 ≤ (Split s sep).length := by
  have hmem : sep ∈ s.data := by simpa [Contains] using h
  simpa [Split] using splitChars_length_of_mem sep s.data hmem

theorem Split_ne_nil (s : String) (sep : Char) : Split s sep ≠ [] := by
  simp [Split, splitChars_ne_nil]

theorem Split_of_not_mem (s : String) (sep : Char) (h : sep ∉ s.data) :
    Split s sep = [s] := by
  simp [Split, splitChars_of_not_mem sep s.data h]

theorem Split_pieces (s : String) (sep : Char) : ∀ p ∈ Split s sep, sep ∉ p.data := by
  intro p hp
  simp only [Split, List.mem_map] at hp
  obtain ⟨q, hq, rfl⟩ := hp
  exact splitChars_pieces sep s.data q hq

/-! ## Theorems about ModifyImagesName -/

theorem image_of_no_slash (repo x : String) (h : '/' ∉ x.data) :
    ModifyImagesName.image repo x = repo ++ "/" ++ x := by
  have hc : Contains x '/' = false := by simpa [Contains] using h
  simp [ModifyImagesName.image, hc]

theorem Split_of_data (s a rest : String) (sep : Char) (h : sep ∉ a.data)
    (hs : s.data = a.data ++ sep :: rest.data) : Split s sep = a :: Split rest sep := by
  simp [Split, hs, splitChars_append sep a.data rest.data h]

theorem image_of_slash (repo a b tail : String) (ha : '/' ∉ a.data) (hb : '/' ∉ b.data)
    (htail : tail = "" ∨ ∃ rest, tail = "/" ++ rest) :
    ModifyImagesName.image repo (a ++ "/" ++ b ++ tail) = repo ++ "/" ++ b := by
  have hdata : (a ++ "/" ++ b ++ tail).data = a.data ++ '/' :: (b ++ tail).data := by
    simp [String.data_append]
  have hc : Contains (a ++ "/" ++ b ++ tail) '/' = true := by
    simp [Contains, hdata]
  have hsplit : Split (a ++ "/" ++ b ++ tail) '/' = a :: Split (b ++ tail) '/' :=
    Split_of_data _ a (b ++ tail) '/' ha hdata
  have hrest : ∃ more, Split (b ++ tail) '/' = b :: more := by
    rcases htail with rfl | ⟨rest, rfl⟩
    · refine ⟨[], ?_⟩
      have : (b ++ "").data = b.data := by simp [String.data_append]
      simp [Split, this, splitChars_of_not_mem '/' b.data hb]
    · refine ⟨Split rest '/', ?_⟩
      exact Split_of_data _ b rest '/' hb (by simp [String.data_append])
  obtain ⟨more, hmore⟩ := hrest
  simp [ModifyImagesName.image, hc, hsplit, hmore]

theorem image_form (repo x : String) :
    ∃ seg : String, '/' ∉ seg.data ∧ ModifyImagesName.image repo x = repo ++ "/" ++ seg := by
  by_cases hc : Contains x '/' = true
  · have hlen := Split_length_of_Contains x '/' hc
    have hmem : (Split x '/').getD 1 "" ∈ Split x '/' := by
      rw [List.getD_eq_getElem _ _ (by omega)]
      exact List.getElem_mem _
    exact ⟨(Split x '/').getD 1 "", Split_pieces x '/' _ hmem, by
      simp [ModifyImagesName.image, hc]⟩
  · have hx : '/' ∉ x.data := by simpa [Contains] using hc
    exact ⟨x, hx, image_of_no_slash repo x hx⟩

theorem image_idempotent (repo x : String) (hrepo : '/' ∉ repo.data) :
    ModifyImagesName.image repo (ModifyImagesName.image repo x)
      = ModifyImagesName.image repo x := by
  obtain ⟨seg, hseg, hx⟩ := image_form repo x
  rw [hx]
  have := image_of_slash repo repo seg "" hrepo hseg (Or.inl rfl)
  have happ : repo ++ "/" ++ seg ++ "" = repo ++ "/" ++ seg := by
    apply String.ext
    simp [String.data_append]
  rw [happ] at this
  exact this

/-- C5, as stated, fails: with the prefix openyurt, the reference
docker.io/edgexfoundry/core-data:2.0 (top-level and container image) is rewritten
to openyurt/edgexfoundry, not to openyurt/core-data:2.0: the image name and tag,
which are the final segment, are lost. -/
theorem ModifyImagesName_drops_name_and_tag :
    ModifyImagesName
        ⟨[⟨"v", [⟨"docker.io/edgexfoundry/core-data:2.0",
                    [⟨"docker.io/edgexfoundry/core-data:2.0"⟩]⟩], []⟩]⟩ "openyurt"
      = ⟨[⟨"v", [⟨"openyurt/edgexfoundry", [⟨"openyurt/edgexfoundry"⟩]⟩], []⟩]⟩ ∧
    (Split "docker.io/edgexfoundry/core-data:2.0" '/').getLast? = some "core-data:2.0" ∧
    "openyurt/edgexfoundry" ≠ "openyurt" ++ "/" ++ "core-data:2.0" := by
  decide

/-- C5, amended: the rewrite of ModifyImagesName keeps the segment that follows
the first "/": a reference a/b, or a/b/rest, with no "/" in a and b, becomes
r/b, and a reference b with no "/" becomes r/b. The trailing image name and tag
are preserved for references with at most one "/". -/
theorem ModifyImagesName_image_keeps_second_segment (repo a b tail : String)
    (ha : '/' ∉ a.data) (hb : '/' ∉ b.data)
    (htail : tail = "" ∨ ∃ rest, tail = "/" ++ rest) :
    ModifyImagesName.image repo (a ++ "/" ++ b ++ tail) = repo ++ "/" ++ b ∧
    ModifyImagesName.image repo b = repo ++ "/" ++ b :=
  ⟨image_of_slash repo a b tail ha hb htail, image_of_no_slash repo b hb⟩

theorem ModifyImagesName_image_keeps_second_segment_witness :
    ModifyImagesName.image "openyurt" ("edgexfoundry" ++ "/" ++ "core-data:2.0" ++ "")
        = "openyurt" ++ "/" ++ "core-data:2.0" ∧
    ModifyImagesName.image "openyurt" "core-data:2.0" = "openyurt" ++ "/" ++ "core-data:2.0" :=
  ModifyImagesName_image_keeps_second_segment "openyurt" "edgexfoundry" "core-data:2.0" ""
    (by decide) (by decide) (Or.inl rfl)

/-- C10, as stated, fails: with the prefix registry.io/openyurt, rewriting the
already rewritten reference changes it again (registry.io/openyurt/core-data:2.0
becomes registry.io/openyurt/openyurt). -/
theorem ModifyImagesName_not_idempotent :
    ModifyImagesName
        (ModifyImagesName ⟨[⟨"v", [⟨"edgexfoundry/core-data:2.0",
            [⟨"edgexfoundry/core-data:2.0"⟩]⟩], []⟩]⟩ "registry.io/openyurt")
        "registry.io/openyurt"
      ≠ ModifyImagesName ⟨[⟨"v", [⟨"edgexfoundry/core-data:2.0",
            [⟨"edgexfoundry/core-data:2.0"⟩]⟩], []⟩]⟩ "registry.io/openyurt" := by
  decide

/-- C10, amended: for every target prefix r that contains no "/", applying
ModifyImagesName with r to a configuration already rewritten with r leaves every
top-level image and every nested container image unchanged. -/
theorem ModifyImagesName_idempotent (edgexConfig : EdgeXConfig) (repo : String)
    (hrepo : '/' ∉ repo.data) :
    ModifyImagesName (ModifyImagesName edgexConfig repo) repo
      = ModifyImagesName edgexConfig repo := by
  simp only [ModifyImagesName, List.map_map]
  congr 1
  apply List.map_congr_left
  intro version _
  simp only [Function.comp_apply, List.map_map]
  congr 1
  apply List.map_congr_left
  intro component _
  simp only [Function.comp_apply, List.map_map, image_idempotent repo _ hrepo]
  congr 1
  apply List.map_congr_left
  intro container _
  simp only [Function.comp_apply, image_idempotent repo _ hrepo]

theorem ModifyImagesName_idempotent_witness :
    ModifyImagesName
        (ModifyImagesName ⟨[⟨"v", [⟨"edgexfoundry/core-data:2.0",
            [⟨"edgexfoundry/core-data:2.0"⟩]⟩], []⟩]⟩ "openyurt") "openyurt"
      = ModifyImagesName ⟨[⟨"v", [⟨"edgexfoundry/core-data:2.0",
            [⟨"edgexfoundry/core-data:2.0"⟩]⟩], []⟩]⟩ "openyurt" :=
  ModifyImagesName_idempotent _ "openyurt" (by decide)

/-! ## Theorems about CollectEdgeXConfig -/

/-- C1, the code at a failing input: the capture of v2 fails with an error that
is neither of the two sentinels, yet CollectEdgeXConfig returns a nil error and
a configuration whose Versions contain v2. -/
theorem CollectEdgeXConfig_swallows_other_error :
    CollectEdgeXConfig
        (fun versionName _ _ =>
          if versionName = "v2" then ⟨[], [], some (CatchError.other "connection refused")⟩
          else ⟨[], [], none⟩)
        ["v1", "v2"] false "amd64"
      = (⟨[⟨"v1", [], []⟩, ⟨"v2", [], []⟩]⟩, none) := by
  decide

/-! ## Theorems about CollectImages -/

theorem Split_name_tag (name tag : String) (hname : ':' ∉ name.data)
    (htag : ':' ∉ tag.data) : Split (name ++ ":" ++ tag) ':' = [name, tag] := by
  rw [Split_of_data (name ++ ":" ++ tag) name tag ':' hname (by simp [String.data_append]),
    Split_of_not_mem tag ':' htag]

theorem singleArchLine_name_tag (name tag : String) (hname : ':' ∉ name.data)
    (htag : ':' ∉ tag.data) :
    CollectImages.singleArchLine (name ++ ":" ++ tag)
      = some ((name ++ ":" ++ tag ++ " ") ++ (" " ++ (name ++ "-arm64") ++ ":" ++ tag) ++ "\n") := by
  simp [CollectImages.singleArchLine, Split_name_tag name tag hname htag, sliceTo, index,
    assign]

/-- C3, as stated, fails: for edgexfoundry/core-data:2.0, absent from the
secondary architecture, the single-arch line has two spaces between the two
references and "-arm64" appended to the repository path, not to the tag. -/
theorem CollectImages_single_arch_line_differs :
    CollectImages none none
        ⟨[⟨"v", [⟨"edgexfoundry/core-data:2.0", []⟩], []⟩]⟩
        ⟨[⟨"v", [⟨"edgexfoundry/core-metadata:2.0", []⟩], []⟩]⟩
      = CollectImagesResult.returned none
          ⟨["edgexfoundry/core-data:2.0  edgexfoundry/core-data-arm64:2.0\n"], []⟩ ∧
    "edgexfoundry/core-data:2.0  edgexfoundry/core-data-arm64:2.0\n"
      ≠ "edgexfoundry/core-data:2.0 edgexfoundry/core-data:2.0-arm64\n" := by
  decide

/-- C3, amended: for a component image name:tag (no ":" inside name or tag)
whose stripped image name is not among the stripped secondary-architecture
images, the loop body writes to the single-arch list, and only there, the default
reference, two spaces, and the synthesized reference that keeps the tag and
appends "-arm64" to the repository path: "name:tag  name-arm64:tag". -/
theorem CollectImages_single_arch_line (newArray : List String) (lists : ImageLists)
    (name tag : String) (containers : List Container)
    (hname : ':' ∉ name.data) (htag : ':' ∉ tag.data) (hnew : name ∉ newArray) :
    CollectImages.component newArray lists ⟨name ++ ":" ++ tag, containers⟩
      = some { lists with
          single := lists.single ++
            [name ++ ":" ++ tag ++ "  " ++ name ++ "-arm64" ++ ":" ++ tag ++ "\n"] } := by
  have hin : stringIsInArray name newArray = false :=
    (stringIsInArray_eq_false_iff _ _).2 hnew
  have hline : (name ++ ":" ++ tag ++ " ") ++ (" " ++ (name ++ "-arm64") ++ ":" ++ tag) ++ "\n"
      = name ++ ":" ++ tag ++ "  " ++ name ++ "-arm64" ++ ":" ++ tag ++ "\n" := by
    apply String.ext
    simp [String.data_append]
  simp [CollectImages.component, Split_name_tag name tag hname htag, index, hin,
    singleArchLine_name_tag name tag hname htag, hline]

theorem CollectImages_single_arch_line_witness :
    CollectImages.component ["edgexfoundry/core-metadata"] ⟨[], []⟩
        ⟨"edgexfoundry/core-data" ++ ":" ++ "2.0", []⟩
      = some { (⟨[], []⟩ : ImageLists) with
          single := [] ++
            ["edgexfoundry/core-data" ++ ":" ++ "2.0" ++ "  " ++ "edgexfoundry/core-data"
              ++ "-arm64" ++ ":" ++ "2.0" ++ "\n"] } :=
  CollectImages_single_arch_line ["edgexfoundry/core-metadata"] ⟨[], []⟩
    "edgexfoundry/core-data" "2.0" [] (by decide) (by decide) (by decide)

/-! ### The loops of CollectImages -/

theorem index_natCast {α : Type} (s : List α) (n : Nat) : index s (n : Int) = s[n]? := by
  simp [index]

theorem index_zero_Split (image : String) :
    index (Split image ':') 0 = some (stripTag image) := by
  cases h : Split image ':' with
  | nil => exact absurd h (Split_ne_nil image ':')
  | cons p ps => simp [index, stripTag, h]

theorem component_eq (newArray : List String) (lists : ImageLists) (c : Component) :
    CollectImages.component newArray lists c
      = if stringIsInArray (stripTag c.image) newArray = true then
          some { lists with multi := lists.multi ++ [c.image ++ "\n"] }
        else
          (CollectImages.singleArchLine c.image).map
            (fun line => { lists with single := lists.single ++ [line] }) := by
  simp only [CollectImages.component, index_zero_Split, Option.bind_eq_bind, Option.some_bind]
  cases hin : stringIsInArray (stripTag c.image) newArray with
  | true => simp
  | false =>
    cases hline : CollectImages.singleArchLine c.image <;> simp

theorem foldlM_eq_none_of_mem {α β : Type} (f : β → α → Option β) (l : List α) (x : α)
    (hx : x ∈ l) (hf : ∀ acc, f acc x = none) (init : β) : l.foldlM f init = none := by
  induction l generalizing init with
  | nil => simp at hx
  | cons y ys ih =>
    rw [List.foldlM_cons]
    cases hy : f init y with
    | none => rfl
    | some b =>
      rcases List.mem_cons.1 hx with rfl | hmem
      · rw [hf init] at hy
        cases hy
      · exact ih hmem b

theorem newArray_range (versionsArm : List Version) (i : Nat) (va : Version)
    (hva : versionsArm[i]? = some va) (n : Nat) (hn : n ≤ va.Components.length)
    (acc : List String) :
    (List.range n).foldlM
        (fun (newArray : List String) (j : Nat) => do
          let versionArm ← index versionsArm (i : Int)
          let componentArm ← index versionArm.Components (j : Int)
          let imgSplit ← index (Split componentArm.image ':') 0
          pure (newArray ++ [imgSplit]))
        acc
      = some (acc ++ (va.Components.take n).map (fun c => stripTag c.image)) := by
  induction n generalizing acc with
  | zero => simp
  | succ n ih =>
    have hlt : n < va.Components.length := by omega
    rw [List.range_succ, List.foldlM_append, ih (by omega) acc]
    simp only [List.foldlM_cons, List.foldlM_nil, index_natCast, hva, Option.bind_eq_bind,
      Option.some_bind, List.getElem?_eq_getElem hlt, index_zero_Split, Option.pure_def,
      Option.bind_some, List.take_succ, Option.toList_some, List.map_append, List.map_cons,
      List.map_nil, List.append_assoc]

theorem newArray_eq (versionsArm : List Version) (i : Nat) (components : List Component)
    (va : Version) (hva : versionsArm[i]? = some va)
    (hlen : components.length ≤ va.Components.length) :
    CollectImages.newArray versionsArm i components
      = some ((va.Components.take components.length).map (fun c => stripTag c.image)) := by
  unfold CollectImages.newArray
  rw [newArray_range versionsArm i va hva components.length hlen []]
  simp

theorem components_foldlM (newArray : List String) (components : List Component)
    (lists : ImageLists)
    (h : ∀ c ∈ components, (CollectImages.singleArchLine c.image).isSome = true) :
    components.foldlM (CollectImages.component newArray) lists
      = some
          ⟨lists.single ++
              (components.filter (fun c => !stringIsInArray (stripTag c.image) newArray)).filterMap
                (fun c => CollectImages.singleArchLine c.image),
            lists.multi ++
              (components.filter (fun c => stringIsInArray (stripTag c.image) newArray)).map
                (fun c => c.image ++ "\n")⟩ := by
  induction components generalizing lists with
  | nil => simp
  | cons c cs ih =>
    have hc := h c (List.mem_cons_self _ _)
    have hcs : ∀ c ∈ cs, (CollectImages.singleArchLine c.image).isSome = true :=
      fun d hd => h d (List.mem_cons_of_mem _ hd)
    obtain ⟨line, hline⟩ := Option.isSome_iff_exists.1 hc
    rw [List.foldlM_cons, component_eq]
    cases hin : stringIsInArray (stripTag c.image) newArray with
    | true => simp [ih _ hcs, hin]
    | false => simp [ih _ hcs, hin, hline]

theorem sliceTo_natCast {α : Type} (s : List α) (k : Nat) (hk : k ≤ s.length) :
    sliceTo s (k : Int) = some (s.take k) := by
  simp [sliceTo, hk]

theorem index_natCast_lt {α : Type} (s : List α) (k : Nat) (hk : k < s.length) :
    index s (k : Int) = some (s.get ⟨k, hk⟩) := by
  simp [index, List.getElem?_eq_getElem hk]

theorem assign_natCast {α : Type} (s : List α) (k : Nat) (hk : k < s.length) (v : α) :
    assign s (k : Int) v = some (s.set k v) := by
  simp [assign, hk]

/-- Lines 105-108 run without a panic on a reference that contains ":". -/
theorem singleArchLine_isSome (image : String) (h : Contains image ':' = true) :
    (CollectImages.singleArchLine image).isSome = true := by
  have hlen := Split_length_of_Contains image ':' h
  unfold CollectImages.singleArchLine
  generalize Split image ':' = L at hlen
  have e1 : (L.length : Int) - 1 = ((L.length - 1 : Nat) : Int) := by omega
  have hpre : (L.take (L.length - 1)).length = L.length - 1 := by simp
  have e2 : ((L.take (L.length - 1)).length : Int) - 1 = ((L.length - 2 : Nat) : Int) := by
    rw [hpre]; omega
  have h1 : L.length - 2 < (L.take (L.length - 1)).length := by rw [hpre]; omega
  have h2 : L.length - 2 < L.length := by omega
  have h3 : 0 < ((L.take (L.length - 1)).set (L.length - 2)
      ((L.take (L.length - 1)).get ⟨L.length - 2, h1⟩ ++ "-arm64")).length := by
    rw [List.length_set, hpre]; omega
  have e3 : ((L.set (L.length - 2)
      ((L.take (L.length - 1)).get ⟨L.length - 2, h1⟩ ++ "-arm64")).length : Int) - 1
        = ((L.length - 1 : Nat) : Int) := by
    rw [List.length_set]; omega
  have h4 : L.length - 1 < (L.set (L.length - 2)
      ((L.take (L.length - 1)).get ⟨L.length - 2, h1⟩ ++ "-arm64")).length := by
    rw [List.length_set]; omega
  have e0 : (0 : Int) = ((0 : Nat) : Int) := rfl
  simp only [e1, sliceTo_natCast L (L.length - 1) (Nat.sub_le _ _), Option.bind_eq_bind,
    Option.some_bind, e2, index_natCast_lt _ _ h1, assign_natCast _ _ h2, assign_natCast _ _ h1,
    e3, index_natCast_lt _ _ h4]
  rw [e0, index_natCast_lt _ 0 h3]
  rfl

theorem stringIsInArray_eq_decide (target : String) (array : List String) :
    stringIsInArray target array = decide (target ∈ array) := by
  cases h : stringIsInArray target array with
  | true => simp [(stringIsInArray_iff _ _).1 h]
  | false => simp [(stringIsInArray_eq_false_iff _ _).1 h]

theorem filterMap_map_some {α β : Type} (f : α → Option β) (l : List α)
    (h : ∀ x ∈ l, (f x).isSome = true) : (l.filterMap f).map some = l.map f := by
  induction l with
  | nil => rfl
  | cons x xs ih =>
    obtain ⟨y, hy⟩ := Option.isSome_iff_exists.1 (h x (List.mem_cons_self _ _))
    have ih2 := ih (fun z hz => h z (List.mem_cons_of_mem _ hz))
    simp [List.filterMap_cons, hy, ih2]

/-- The body of the outer loop on a version whose secondary-architecture
counterpart has as many components. -/
theorem version_eq (versionsArm : List Version) (lists : ImageLists) (i : Nat)
    (v va : Version) (hva : versionsArm[i]? = some va)
    (hlen : v.Components.length = va.Components.length)
    (htag : ∀ c ∈ v.Components, Contains c.image ':' = true) :
    ∃ out, CollectImages.version versionsArm lists i v = some out ∧
      out.multi = lists.multi ++
        (v.Components.filter (fun c =>
          decide (stripTag c.image ∈ va.Components.map (fun ca => stripTag ca.image)))).map
          (fun c => c.image ++ "\n") ∧
      out.single.map some = lists.single.map some ++
        (v.Components.filter (fun c =>
          decide (stripTag c.image ∉ va.Components.map (fun ca => stripTag ca.image)))).map
          (fun c => CollectImages.singleArchLine c.image) := by
  have hsome : ∀ c ∈ v.Components, (CollectImages.singleArchLine c.image).isSome = true :=
    fun c hc => singleArchLine_isSome c.image (htag c hc)
  have hfold : CollectImages.version versionsArm lists i v
      = some
          ⟨lists.single ++
              (v.Components.filter (fun c => !stringIsInArray (stripTag c.image)
                (va.Components.map (fun ca => stripTag ca.image)))).filterMap
                (fun c => CollectImages.singleArchLine c.image),
            lists.multi ++
              (v.Components.filter (fun c => stringIsInArray (stripTag c.image)
                (va.Components.map (fun ca => stripTag ca.image)))).map
                (fun c => c.image ++ "\n")⟩ := by
    simp only [CollectImages.version,
      newArray_eq versionsArm i v.Components va hva (by omega), Option.bind_eq_bind,
      Option.some_bind]
    rw [List.take_of_length_le (by omega)]
    exact components_foldlM _ _ lists hsome
  have hp : (fun c : Component =>
        !decide (stripTag c.image ∈ va.Components.map (fun ca => stripTag ca.image)))
      = (fun c : Component =>
        decide (stripTag c.image ∉ va.Components.map (fun ca => stripTag ca.image))) := by
    funext c
    exact decide_not.symm
  refine ⟨_, hfold, ?_, ?_⟩
  · simp only [stringIsInArray_eq_decide]
  · simp only [List.map_append, stringIsInArray_eq_decide]
    rw [hp]
    congr 1
    exact filterMap_map_some (fun c : Component => CollectImages.singleArchLine c.image)
      (v.Components.filter (fun c =>
        decide (stripTag c.image ∉ va.Components.map (fun ca => stripTag ca.image))))
      (fun c hc => hsome c (List.mem_of_mem_filter hc))

theorem versions_foldlM (vs arms : List Version)
    (hal : List.Forall₂ (fun v va => v.Components.length = va.Components.length) vs arms)
    (htag : ∀ v ∈ vs, ∀ c ∈ v.Components, Contains c.image ':' = true)
    (pre : List Version) (lists : ImageLists) :
    ∃ out,
      (vs.enumFrom pre.length).foldlM
          (fun lists iv => CollectImages.version (pre ++ arms) lists iv.1 iv.2) lists
        = some out ∧
      out.multi = lists.multi ++
        (vs.zip arms).flatMap (fun p =>
          (p.1.Components.filter (fun c =>
            decide (stripTag c.image ∈ p.2.Components.map (fun ca => stripTag ca.image)))).map
            (fun c => c.image ++ "\n")) ∧
      out.single.map some = lists.single.map some ++
        (vs.zip arms).flatMap (fun p =>
          (p.1.Components.filter (fun c =>
            decide (stripTag c.image ∉ p.2.Components.map (fun ca => stripTag ca.image)))).map
            (fun c => CollectImages.singleArchLine c.image)) := by
  induction hal generalizing pre lists with
  | nil => exact ⟨lists, by simp, by simp, by simp⟩
  | @cons v va vs arms hlen _ ih =>
    have hidx : (pre ++ va :: arms)[pre.length]? = some va := by
      rw [List.getElem?_append_right (le_refl _)]
      simp
    obtain ⟨mid, hmid, hmulti, hsingle⟩ :=
      version_eq (pre ++ va :: arms) lists pre.length v va hidx hlen
        (htag v (List.mem_cons_self _ _))
    obtain ⟨out, hout, houtm, houts⟩ :=
      ih (fun w hw => htag w (List.mem_cons_of_mem _ hw)) (pre ++ [va]) mid
    refine ⟨out, ?_, ?_, ?_⟩
    · rw [List.enumFrom_cons, List.foldlM_cons, hmid]
      simp only [Option.bind_eq_bind, Option.some_bind]
      have hpre : (pre ++ [va]).length = pre.length + 1 := by simp
      have happ : pre ++ [va] ++ arms = pre ++ va :: arms := by simp
      rw [hpre, happ] at hout
      exact hout
    · rw [houtm, hmulti, List.zip_cons_cons, List.flatMap_cons, List.append_assoc]
    · rw [houts, hsingle, List.zip_cons_cons, List.flatMap_cons, List.append_assoc]

/-- C4, as stated, fails: the two components of the default architecture match
the secondary architecture's components only at the other index, yet both are
written to the multi-arch list and none to the single-arch list. -/
theorem CollectImages_matches_any_index :
    CollectImages none none
        ⟨[⟨"v", [⟨"edgexfoundry/core-data:2.0", []⟩,
                  ⟨"edgexfoundry/core-metadata:2.0", []⟩], []⟩]⟩
        ⟨[⟨"v", [⟨"edgexfoundry/core-metadata:2.0", []⟩,
                  ⟨"edgexfoundry/core-data:2.0", []⟩], []⟩]⟩
      = CollectImagesResult.returned none
          ⟨[], ["edgexfoundry/core-data:2.0\n", "edgexfoundry/core-metadata:2.0\n"]⟩ ∧
    stripTag "edgexfoundry/core-data:2.0" ≠ stripTag "edgexfoundry/core-metadata:2.0" := by
  decide

/-- The classification of lines 101-116 in the code's own terms: the piece of the
reference before its first ":" is looked up among those pieces of the secondary
architecture's components of the same version. -/
theorem first_piece_classification (edgexConfig edgeXConfigArm : EdgeXConfig)
    (haligned : List.Forall₂ (fun v va => v.Components.length = va.Components.length)
      edgexConfig.Versions edgeXConfigArm.Versions)
    (htag : ∀ v ∈ edgexConfig.Versions, ∀ c ∈ v.Components, Contains c.image ':' = true) :
    ∃ lists, CollectImages none none edgexConfig edgeXConfigArm
        = CollectImagesResult.returned none lists ∧
      lists.multi =
        (edgexConfig.Versions.zip edgeXConfigArm.Versions).flatMap (fun p =>
          (p.1.Components.filter (fun c =>
            decide (stripTag c.image ∈ p.2.Components.map (fun ca => stripTag ca.image)))).map
            (fun c => c.image ++ "\n")) ∧
      lists.single.map some =
        (edgexConfig.Versions.zip edgeXConfigArm.Versions).flatMap (fun p =>
          (p.1.Components.filter (fun c =>
            decide (stripTag c.image ∉ p.2.Components.map (fun ca => stripTag ca.image)))).map
            (fun c => CollectImages.singleArchLine c.image)) := by
  obtain ⟨out, hout, hmulti, hsingle⟩ :=
    versions_foldlM edgexConfig.Versions edgeXConfigArm.Versions haligned htag [] ⟨[], []⟩
  refine ⟨out, ?_, by simpa using hmulti, by simpa using hsingle⟩
  have hfold : edgexConfig.Versions.enum.foldlM
      (fun lists iv => CollectImages.version edgeXConfigArm.Versions lists iv.1 iv.2) ⟨[], []⟩
      = some out := by
    simpa [List.enum] using hout
  simp only [CollectImages, hfold]

theorem count_one_split (c : Char) (l : List Char) (h : l.count c = 1) :
    ∃ a b, l = a ++ c :: b ∧ c ∉ a ∧ c ∉ b := by
  induction l with
  | nil => simp at h
  | cons x xs ih =>
    by_cases hx : x = c
    · subst hx
      have h0 : xs.count x = 0 := by simpa [List.count_cons] using h
      exact ⟨[], xs, rfl, by simp, List.count_eq_zero.1 h0⟩
    · have hc : xs.count c = 1 := by simpa [List.count_cons, hx] using h
      obtain ⟨a, b, hab, ha, hb⟩ := ih hc
      refine ⟨x :: a, b, by simp [hab], ?_, hb⟩
      simp [ha, Ne.symm hx]

theorem stripTag_name_tag (image : String) (h : image.data.count ':' = 1) :
    ∃ name tag, image = name ++ ":" ++ tag ∧ ':' ∉ name.data ∧ ':' ∉ tag.data ∧
      stripTag image = name := by
  obtain ⟨a, b, hab, ha, hb⟩ := count_one_split ':' image.data h
  refine ⟨⟨a⟩, ⟨b⟩, ?_, ha, hb, ?_⟩
  · apply String.ext
    simp [String.data_append, hab]
  · simp [stripTag, Split_of_data image ⟨a⟩ ⟨b⟩ ':' ha hab]

theorem Contains_of_count_one (image : String) (h : image.data.count ':' = 1) :
    Contains image ':' = true := by
  have hmem : ':' ∈ image.data := List.count_pos_iff.1 (by omega)
  simpa [Contains] using hmem

/-- C4, amended: when both output files are created, for positionally aligned
configurations (same number of versions, same number of components per version)
in which every image, of either architecture, has the form name:tag with exactly
one ":" (none inside name or tag), the stripped image of name:tag is name, the
reference with the tag removed; CollectImages returns normally, and it writes a
component to the multi-arch list if and only if its stripped image equals the
stripped image of some secondary-architecture component of the same version (at
any component index); otherwise it writes it to the single-arch list. -/
theorem CollectImages_classifies (edgexConfig edgeXConfigArm : EdgeXConfig)
    (haligned : List.Forall₂ (fun v va => v.Components.length = va.Components.length)
      edgexConfig.Versions edgeXConfigArm.Versions)
    (hform : ∀ v ∈ edgexConfig.Versions, ∀ c ∈ v.Components, c.image.data.count ':' = 1)
    (hformArm : ∀ v ∈ edgeXConfigArm.Versions, ∀ c ∈ v.Components,
      c.image.data.count ':' = 1) :
    (∀ v ∈ edgexConfig.Versions ++ edgeXConfigArm.Versions, ∀ c ∈ v.Components,
      ∃ name tag, c.image = name ++ ":" ++ tag ∧ ':' ∉ name.data ∧ ':' ∉ tag.data ∧
        stripTag c.image = name) ∧
    ∃ lists, CollectImages none none edgexConfig edgeXConfigArm
        = CollectImagesResult.returned none lists ∧
      lists.multi =
        (edgexConfig.Versions.zip edgeXConfigArm.Versions).flatMap (fun p =>
          (p.1.Components.filter (fun c =>
            decide (stripTag c.image ∈ p.2.Components.map (fun ca => stripTag ca.image)))).map
            (fun c => c.image ++ "\n")) ∧
      lists.single.map some =
        (edgexConfig.Versions.zip edgeXConfigArm.Versions).flatMap (fun p =>
          (p.1.Components.filter (fun c =>
            decide (stripTag c.image ∉ p.2.Components.map (fun ca => stripTag ca.image)))).map
            (fun c => CollectImages.singleArchLine c.image)) := by
  refine ⟨?_, first_piece_classification edgexConfig edgeXConfigArm haligned
    (fun v hv c hc => Contains_of_count_one c.image (hform v hv c hc))⟩
  intro v hv c hc
  rcases List.mem_append.1 hv with h | h
  · exact stripTag_name_tag c.image (hform v h c hc)
  · exact stripTag_name_tag c.image (hformArm v h c hc)

theorem CollectImages_classifies_witness :
    (∀ v ∈ exampleConfig.Versions ++ exampleConfigArm.Versions, ∀ c ∈ v.Components,
      ∃ name tag, c.image = name ++ ":" ++ tag ∧ ':' ∉ name.data ∧ ':' ∉ tag.data ∧
        stripTag c.image = name) ∧
    ∃ lists, CollectImages none none exampleConfig exampleConfigArm
        = CollectImagesResult.returned none lists ∧
      lists.multi =
        (exampleConfig.Versions.zip exampleConfigArm.Versions).flatMap (fun p =>
          (p.1.Components.filter (fun c =>
            decide (stripTag c.image ∈ p.2.Components.map (fun ca => stripTag ca.image)))).map
            (fun c => c.image ++ "\n")) ∧
      lists.single.map some =
        (exampleConfig.Versions.zip exampleConfigArm.Versions).flatMap (fun p =>
          (p.1.Components.filter (fun c =>
            decide (stripTag c.image ∉ p.2.Components.map (fun ca => stripTag ca.image)))).map
            (fun c => CollectImages.singleArchLine c.image)) :=
  CollectImages_classifies exampleConfig exampleConfigArm (by decide) (by decide) (by decide)

theorem newArray_eq_none (versionsArm : List Version) (i : Nat) (components : List Component)
    (hne : components ≠ [])
    (hshort : versionsArm[i]? = none ∨
      ∃ va, versionsArm[i]? = some va ∧ va.Components.length < components.length) :
    CollectImages.newArray versionsArm i components = none := by
  unfold CollectImages.newArray
  rcases hshort with hnone | ⟨va, hva, hlt⟩
  · apply foldlM_eq_none_of_mem _ _ 0
    · exact List.mem_range.2 (List.length_pos.2 hne)
    · intro acc
      simp [index_natCast, hnone]
  · apply foldlM_eq_none_of_mem _ _ va.Components.length
    · exact List.mem_range.2 hlt
    · intro acc
      simp [index_natCast, hva]

/-- C6, as stated, fails: the default configuration is the shorter one (one
version with one component, against two versions and two components), and
CollectImages returns normally with a nil error. -/
theorem CollectImages_returns_when_default_shorter :
    ([(⟨"jakarta", [⟨"edgexfoundry/core-data:2.1.0", []⟩], []⟩ : Version)].length ≠
      [(⟨"jakarta", [⟨"edgexfoundry/core-data:2.1.0", []⟩,
                      ⟨"edgexfoundry/device-virtual:2.1.0", []⟩], []⟩ : Version),
        ⟨"kamakura", [⟨"edgexfoundry/core-data:2.2.0", []⟩,
                       ⟨"edgexfoundry/device-virtual:2.2.0", []⟩], []⟩].length) ∧
    CollectImages none none
        ⟨[⟨"jakarta", [⟨"edgexfoundry/core-data:2.1.0", []⟩], []⟩]⟩
        ⟨[⟨"jakarta", [⟨"edgexfoundry/core-data:2.1.0", []⟩,
                        ⟨"edgexfoundry/device-virtual:2.1.0", []⟩], []⟩,
          ⟨"kamakura", [⟨"edgexfoundry/core-data:2.2.0", []⟩,
                         ⟨"edgexfoundry/device-virtual:2.2.0", []⟩], []⟩]⟩
      = CollectImagesResult.returned none ⟨[], ["edgexfoundry/core-data:2.1.0\n"]⟩ := by
  decide

/-- C6, amended: when both output files are created, whenever the secondary
configuration is the shorter one at a version index where the default
configuration has a version with at least one component (the secondary
configuration has no version at that index, or fewer components there than the
default one), CollectImages fails with an index-out-of-range failure and does
not return normally. Nothing is stated for a default configuration that is the
shorter one. -/
theorem CollectImages_fails_when_secondary_shorter (edgexConfig edgeXConfigArm : EdgeXConfig)
    (i : Nat) (v : Version) (hv : edgexConfig.Versions[i]? = some v)
    (hne : v.Components ≠ [])
    (hshort : edgeXConfigArm.Versions[i]? = none ∨
      ∃ va, edgeXConfigArm.Versions[i]? = some va ∧
        va.Components.length < v.Components.length) :
    CollectImages none none edgexConfig edgeXConfigArm
      = CollectImagesResult.indexOutOfRange := by
  have hmem : (i, v) ∈ edgexConfig.Versions.enum := List.mk_mem_enum_iff_getElem?.2 hv
  have hfold : edgexConfig.Versions.enum.foldlM
      (fun lists iv => CollectImages.version edgeXConfigArm.Versions lists iv.1 iv.2) ⟨[], []⟩
      = none := by
    apply foldlM_eq_none_of_mem _ _ (i, v) hmem
    intro acc
    simp [CollectImages.version, newArray_eq_none edgeXConfigArm.Versions i v.Components hne hshort]
  simp only [CollectImages, hfold]

theorem CollectImages_fails_when_secondary_shorter_witness :
    CollectImages none none exampleConfig exampleConfigArmShort
      = CollectImagesResult.indexOutOfRange :=
  CollectImages_fails_when_secondary_shorter exampleConfig exampleConfigArmShort 0
    ⟨"jakarta", [⟨"edgexfoundry/core-data:2.1.0", []⟩,
                  ⟨"edgexfoundry/device-virtual:2.1.0", []⟩], []⟩
    (by decide) (by decide) (Or.inr ⟨⟨"jakarta", [⟨"edgexfoundry/core-data:2.1.0", []⟩], []⟩,
      by decide, by decide⟩)

/-! ## Further theorems about CollectVersionToManifest -/

/-- C11: for an old manifest whose count is the length of its pairwise distinct
versions, and a discovered list that contains every old version, the count of
the manifest returned by CollectVersionToManifest is at least the old count. -/
theorem CollectVersionToManifest_count_monotone (versionList : List Version)
    (oldManifest : Manifest)
    (hcount : oldManifest.Count = (oldManifest.Versions.length : Int))
    (hold : oldManifest.Versions.Nodup)
    (hsub : ∀ n ∈ oldManifest.Versions, n ∈ versionList.map (fun x => x.Name)) :
    oldManifest.Count ≤ (CollectVersionToManifest versionList oldManifest).Count := by
  rw [CollectVersionToManifest_eq, hcount]
  have hle : oldManifest.Versions.length ≤ (versionList.map (fun x => x.Name)).length :=
    (List.subperm_of_subset hold hsub).length_le
  show (oldManifest.Versions.length : Int) ≤ ((versionList.map (fun v => v.Name)).length : Int)
  exact_mod_cast hle

theorem CollectVersionToManifest_count_monotone_witness :
    (⟨"false", 2, "v2", ["v1", "v2"]⟩ : Manifest).Count
      ≤ (CollectVersionToManifest [⟨"v1", [], []⟩, ⟨"v2", [], []⟩, ⟨"v3", [], []⟩]
          ⟨"false", 2, "v2", ["v1", "v2"]⟩).Count :=
  CollectVersionToManifest_count_monotone
    [⟨"v1", [], []⟩, ⟨"v2", [], []⟩, ⟨"v3", [], []⟩] ⟨"false", 2, "v2", ["v1", "v2"]⟩
    (by decide) (by decide) (by decide)

/-- C16: CollectVersionToManifest sets updated to "true" if and only if the old
manifest's count is strictly less than the number of versions of the new
manifest, and to "false" otherwise; old versions [v1, v2] (latest v2, count 2)
with discovered v1, v2, v3 gives versions [v1, v2, v3], latest v3, count 3 and
updated "true". -/
theorem CollectVersionToManifest_updated_iff_count_lt :
    (∀ (versionList : List Version) (oldManifest : Manifest),
      ((CollectVersionToManifest versionList oldManifest).Updated = "true"
          ↔ oldManifest.Count
              < ((CollectVersionToManifest versionList oldManifest).Versions.length : Int)) ∧
      ((CollectVersionToManifest versionList oldManifest).Updated = "false"
          ↔ ¬ oldManifest.Count
              < ((CollectVersionToManifest versionList oldManifest).Versions.length : Int))) ∧
    CollectVersionToManifest [⟨"v1", [], []⟩, ⟨"v2", [], []⟩, ⟨"v3", [], []⟩]
        ⟨"false", 2, "v2", ["v1", "v2"]⟩
      = ⟨"true", 3, "v3", ["v1", "v2", "v3"]⟩ := by
  refine ⟨?_, by decide⟩
  intro versionList oldManifest
  rw [CollectVersionToManifest_eq]
  by_cases h : oldManifest.Count < ((versionList.map (fun v => v.Name)).length : Int)
  · simp only [h, if_true]
    decide
  · simp only [h, if_false]
    decide

/-- C17: when every discovered name is already present in the old manifest's
versions, the latestVersion returned by CollectVersionToManifest is the old
manifest's latestVersion. -/
theorem CollectVersionToManifest_latest_carried_over (versionList : List Version)
    (oldManifest : Manifest)
    (hall : ∀ n ∈ versionList.map (fun x => x.Name), n ∈ oldManifest.Versions) :
    (CollectVersionToManifest versionList oldManifest).LatestVersion
      = oldManifest.LatestVersion := by
  rw [CollectVersionToManifest_eq, (newNames_eq_nil_iff _ _).2 hall]
  simp

theorem CollectVersionToManifest_latest_carried_over_witness :
    (CollectVersionToManifest [⟨"v1", [], []⟩, ⟨"v2", [], []⟩]
        ⟨"false", 2, "v2", ["v1", "v2"]⟩).LatestVersion
      = (⟨"false", 2, "v2", ["v1", "v2"]⟩ : Manifest).LatestVersion :=
  CollectVersionToManifest_latest_carried_over [⟨"v1", [], []⟩, ⟨"v2", [], []⟩]
    ⟨"false", 2, "v2", ["v1", "v2"]⟩ (by decide)

/-- C19: the versions list of the manifest returned by CollectVersionToManifest
is exactly the sequence of discovered version names, in discovery order, and its
count is the length of that list. -/
theorem CollectVersionToManifest_versions_and_count (versionList : List Version)
    (oldManifest : Manifest) :
    (CollectVersionToManifest versionList oldManifest).Versions
        = versionList.map (fun x => x.Name) ∧
    (CollectVersionToManifest versionList oldManifest).Count
        = ((CollectVersionToManifest versionList oldManifest).Versions.length : Int) := by
  rw [CollectVersionToManifest_eq]
  exact ⟨rfl, rfl⟩

/-! ## Further theorems about CollectEdgeXConfig -/

theorem CollectEdgeXConfig_step_foldl (capture : String → Bool → String → CatchOutcome)
    (isSecurity : Bool) (arch : String) (versionsInfo : List String)
    (edgeXConfig : EdgeXConfig) :
    versionsInfo.foldl (CollectEdgeXConfig.step capture isSecurity arch) edgeXConfig
      = ⟨edgeXConfig.Versions ++
          (versionsInfo.filter (fun n => decide (n ≠ "main" ∧
              (capture n isSecurity arch).err ≠ some CatchError.ErrConfigFileNotFound ∧
              (capture n isSecurity arch).err ≠ some CatchError.ErrVersionNotAdapted))).map
            (fun n => ⟨n, (capture n isSecurity arch).Components,
              (capture n isSecurity arch).ConfigMaps⟩)⟩ := by
  induction versionsInfo generalizing edgeXConfig with
  | nil => simp
  | cons n ns ih =>
    rw [List.foldl_cons, ih]
    by_cases hmain : n = "main"
    · simp [CollectEdgeXConfig.step, hmain]
    · by_cases h1 : (capture n isSecurity arch).err = some CatchError.ErrConfigFileNotFound
      · simp [CollectEdgeXConfig.step, hmain, h1]
      · by_cases h2 : (capture n isSecurity arch).err = some CatchError.ErrVersionNotAdapted
        · simp [CollectEdgeXConfig.step, hmain, h2]
        · simp [CollectEdgeXConfig.step, hmain, h1, h2, newVersion]

theorem CollectEdgeXConfig_names (capture : String → Bool → String → CatchOutcome)
    (versionsInfo : List String) (isSecurity : Bool) (arch : String) :
    (CollectEdgeXConfig capture versionsInfo isSecurity arch).1.Versions.map (fun v => v.Name)
      = versionsInfo.filter (fun n => decide (n ≠ "main" ∧
          (capture n isSecurity arch).err ≠ some CatchError.ErrConfigFileNotFound ∧
          (capture n isSecurity arch).err ≠ some CatchError.ErrVersionNotAdapted)) := by
  simp [CollectEdgeXConfig, CollectEdgeXConfig_step_foldl, newEdgeXConfig, List.map_map,
    Function.comp_def]

/-- C13: the version names of the configuration returned by CollectEdgeXConfig
are an order-preserving sublist of the candidates (so there are at most as many,
and each occurs among the candidates), and every candidate that is omitted is
"main" or had its capture report ErrConfigFileNotFound or ErrVersionNotAdapted. -/
theorem CollectEdgeXConfig_names_sublist (capture : String → Bool → String → CatchOutcome)
    (versionsInfo : List String) (isSecurity : Bool) (arch : String) :
    List.Sublist
        ((CollectEdgeXConfig capture versionsInfo isSecurity arch).1.Versions.map
          (fun v => v.Name))
        versionsInfo ∧
    ((CollectEdgeXConfig capture versionsInfo isSecurity arch).1.Versions.map
        (fun v => v.Name)).length ≤ versionsInfo.length ∧
    (∀ n ∈ (CollectEdgeXConfig capture versionsInfo isSecurity arch).1.Versions.map
        (fun v => v.Name), n ∈ versionsInfo) ∧
    (∀ n ∈ versionsInfo,
      n ∉ (CollectEdgeXConfig capture versionsInfo isSecurity arch).1.Versions.map
          (fun v => v.Name) →
        n = "main" ∨
        (capture n isSecurity arch).err = some CatchError.ErrConfigFileNotFound ∨
        (capture n isSecurity arch).err = some CatchError.ErrVersionNotAdapted) := by
  rw [CollectEdgeXConfig_names]
  refine ⟨List.filter_sublist _, List.length_filter_le _ _, ?_, ?_⟩
  · intro n hn
    exact List.mem_of_mem_filter hn
  · intro n hn hnot
    by_contra hcon
    push_neg at hcon
    exact hnot (List.mem_filter.2 ⟨hn, by simpa using hcon⟩)

theorem CollectEdgeXConfig_names_sublist_witness :
    List.Sublist
        ((CollectEdgeXConfig
            (fun versionName _ _ =>
              if versionName = "hanoi" then ⟨[], [], some CatchError.ErrConfigFileNotFound⟩
              else ⟨[], [], none⟩)
            ["main", "hanoi", "jakarta"] true "amd64").1.Versions.map (fun v => v.Name))
        ["main", "hanoi", "jakarta"] :=
  (CollectEdgeXConfig_names_sublist
    (fun versionName _ _ =>
      if versionName = "hanoi" then ⟨[], [], some CatchError.ErrConfigFileNotFound⟩
      else ⟨[], [], none⟩)
    ["main", "hanoi", "jakarta"] true "amd64").1

/-- C18: whatever the candidates, the security-mode flag, the architecture and
the outcomes of the capture, no version named "main" is in the Versions of the
configuration returned by CollectEdgeXConfig. -/
theorem CollectEdgeXConfig_never_main (capture : String → Bool → String → CatchOutcome)
    (versionsInfo : List String) (isSecurity : Bool) (arch : String) :
    "main" ∉ (CollectEdgeXConfig capture versionsInfo isSecurity arch).1.Versions.map
      (fun v => v.Name) := by
  rw [CollectEdgeXConfig_names]
  intro h
  have := (List.mem_filter.1 h).2
  simp at this

/-! ## Further theorems about ModifyImagesName -/

/-- C14: for every prefix r and every a and b:tag without "/", ModifyImagesName
rewrites the reference a/b:tag to r/b:tag and the path-less reference b:tag to
r/b:tag, as top-level image and as container image. -/
theorem ModifyImagesName_rewrites_a_b_tag (repo a b tag versionName : String)
    (configMaps : List String)
    (ha : '/' ∉ a.data) (hb : '/' ∉ (b ++ ":" ++ tag).data) :
    ModifyImagesName.image repo (a ++ "/" ++ (b ++ ":" ++ tag))
        = repo ++ "/" ++ (b ++ ":" ++ tag) ∧
    ModifyImagesName.image repo (b ++ ":" ++ tag) = repo ++ "/" ++ (b ++ ":" ++ tag) ∧
    ModifyImagesName
        ⟨[⟨versionName,
            [⟨a ++ "/" ++ (b ++ ":" ++ tag),
              [⟨a ++ "/" ++ (b ++ ":" ++ tag)⟩, ⟨b ++ ":" ++ tag⟩]⟩],
            configMaps⟩]⟩ repo
      = ⟨[⟨versionName,
            [⟨repo ++ "/" ++ (b ++ ":" ++ tag),
              [⟨repo ++ "/" ++ (b ++ ":" ++ tag)⟩, ⟨repo ++ "/" ++ (b ++ ":" ++ tag)⟩]⟩],
            configMaps⟩]⟩ := by
  have h1 : ModifyImagesName.image repo (a ++ "/" ++ (b ++ ":" ++ tag))
      = repo ++ "/" ++ (b ++ ":" ++ tag) := by
    have := image_of_slash repo a (b ++ ":" ++ tag) "" ha hb (Or.inl rfl)
    have happ : a ++ "/" ++ (b ++ ":" ++ tag) ++ "" = a ++ "/" ++ (b ++ ":" ++ tag) := by
      apply String.ext
      simp [String.data_append]
    rw [happ] at this
    exact this
  have h2 : ModifyImagesName.image repo (b ++ ":" ++ tag) = repo ++ "/" ++ (b ++ ":" ++ tag) :=
    image_of_no_slash repo _ hb
  refine ⟨h1, h2, ?_⟩
  simp [ModifyImagesName, h1, h2]

theorem ModifyImagesName_rewrites_a_b_tag_witness :
    ModifyImagesName.image "openyurt" ("edgexfoundry" ++ "/" ++ ("core-data" ++ ":" ++ "2.0"))
      = "openyurt" ++ "/" ++ ("core-data" ++ ":" ++ "2.0") :=
  (ModifyImagesName_rewrites_a_b_tag "openyurt" "edgexfoundry" "core-data" "2.0" "jakarta" []
    (by decide) (by decide)).1

/-- C15: in a configuration where the container images of every component all
equal the component's top-level image, after ModifyImagesName with any prefix the
container images of every component still all equal its top-level image. -/
theorem ModifyImagesName_images_agree (edgexConfig : EdgeXConfig) (repo : String)
    (hagree : ∀ v ∈ edgexConfig.Versions, ∀ c ∈ v.Components, ∀ k ∈ c.Containers,
      k.Image = c.image) :
    ∀ v ∈ (ModifyImagesName edgexConfig repo).Versions, ∀ c ∈ v.Components,
      ∀ k ∈ c.Containers, k.Image = c.image := by
  intro v hv c hc k hk
  simp only [ModifyImagesName, List.mem_map] at hv
  obtain ⟨v0, hv0, rfl⟩ := hv
  simp only [List.mem_map] at hc
  obtain ⟨c0, hc0, rfl⟩ := hc
  simp only [List.mem_map] at hk
  obtain ⟨k0, hk0, rfl⟩ := hk
  simp only [hagree v0 hv0 c0 hc0 k0 hk0]

theorem ModifyImagesName_images_agree_witness :
    (⟨"openyurt/core-data:2.1.0"⟩ : Container).Image
      = (⟨"openyurt/core-data:2.1.0", [⟨"openyurt/core-data:2.1.0"⟩]⟩ : Component).image :=
  ModifyImagesName_images_agree
    ⟨[⟨"jakarta", [⟨"edgexfoundry/core-data:2.1.0", [⟨"edgexfoundry/core-data:2.1.0"⟩]⟩], []⟩]⟩
    "openyurt" (by decide)
    ⟨"jakarta", [⟨"openyurt/core-data:2.1.0", [⟨"openyurt/core-data:2.1.0"⟩]⟩], []⟩ (by decide)
    ⟨"openyurt/core-data:2.1.0", [⟨"openyurt/core-data:2.1.0"⟩]⟩ (by decide)
    ⟨"openyurt/core-data:2.1.0"⟩ (by decide)

/-! ## Further theorems about CollectImages -/

theorem components_foldlM_partition (newArray : List String) (components : List Component)
    (lists out : ImageLists)
    (h : components.foldlM (CollectImages.component newArray) lists = some out) :
    ∃ flags : List Bool, flags.length = components.length ∧
      out.multi = lists.multi ++
        ((components.zip flags).filter (fun p => p.2)).map (fun p => p.1.image ++ "\n") ∧
      out.single.map some = lists.single.map some ++
        ((components.zip flags).filter (fun p => !p.2)).map
          (fun p => CollectImages.singleArchLine p.1.image) := by
  induction components generalizing lists with
  | nil =>
    have hout : lists = out := by simpa using h
    subst hout
    exact ⟨[], rfl, by simp, by simp⟩
  | cons c cs ih =>
    rw [List.foldlM_cons, component_eq] at h
    cases hin : stringIsInArray (stripTag c.image) newArray with
    | true =>
      simp only [hin, if_true, Option.bind_eq_bind, Option.some_bind] at h
      obtain ⟨flags, hlen, hmulti, hsingle⟩ := ih _ h
      refine ⟨true :: flags, by simp [hlen], ?_, ?_⟩
      · simp [hmulti]
      · simp [hsingle]
    | false =>
      simp only [hin, Bool.false_eq_true, if_false, Option.bind_eq_bind] at h
      cases hline : CollectImages.singleArchLine c.image with
      | none => simp [hline] at h
      | some line =>
        simp only [hline, Option.map_some', Option.some_bind] at h
        obtain ⟨flags, hlen, hmulti, hsingle⟩ := ih _ h
        refine ⟨false :: flags, by simp [hlen], ?_, ?_⟩
        · simp [hmulti]
        · simp [hsingle, hline]

theorem version_partition (versionsArm : List Version) (lists out : ImageLists) (i : Nat)
    (v : Version) (h : CollectImages.version versionsArm lists i v = some out) :
    ∃ flags : List Bool, flags.length = v.Components.length ∧
      out.multi = lists.multi ++
        ((v.Components.zip flags).filter (fun p => p.2)).map (fun p => p.1.image ++ "\n") ∧
      out.single.map some = lists.single.map some ++
        ((v.Components.zip flags).filter (fun p => !p.2)).map
          (fun p => CollectImages.singleArchLine p.1.image) := by
  simp only [CollectImages.version, Option.bind_eq_bind] at h
  cases hna : CollectImages.newArray versionsArm i v.Components with
  | none => simp [hna] at h
  | some newArray =>
    simp only [hna, Option.some_bind] at h
    exact components_foldlM_partition newArray v.Components lists out h

theorem versions_partition (versionsArm : List Version) (vs : List Version) (k : Nat)
    (lists out : ImageLists)
    (h : (vs.enumFrom k).foldlM
        (fun lists iv => CollectImages.version versionsArm lists iv.1 iv.2) lists = some out) :
    ∃ flags : List Bool, flags.length = (vs.flatMap (fun v => v.Components)).length ∧
      out.multi = lists.multi ++
        (((vs.flatMap (fun v => v.Components)).zip flags).filter (fun p => p.2)).map
          (fun p => p.1.image ++ "\n") ∧
      out.single.map some = lists.single.map some ++
        (((vs.flatMap (fun v => v.Components)).zip flags).filter (fun p => !p.2)).map
          (fun p => CollectImages.singleArchLine p.1.image) := by
  induction vs generalizing k lists with
  | nil =>
    have hout : lists = out := by simpa using h
    subst hout
    exact ⟨[], rfl, by simp, by simp⟩
  | cons v vs ih =>
    rw [List.enumFrom_cons, List.foldlM_cons] at h
    cases hstep : CollectImages.version versionsArm lists k v with
    | none => simp [hstep] at h
    | some mid =>
      simp only [hstep, Option.bind_eq_bind, Option.some_bind] at h
      obtain ⟨fv, hfv, hvm, hvs⟩ := version_partition versionsArm lists mid k v hstep
      obtain ⟨fr, hfr, hrm, hrs⟩ := ih (k + 1) mid h
      refine ⟨fv ++ fr, ?_, ?_, ?_⟩
      · simp [List.flatMap_cons, hfv, hfr]
      · rw [hrm, hvm, List.flatMap_cons, List.zip_append hfv.symm, List.filter_append,
          List.map_append, List.append_assoc]
      · rw [hrs, hvs, List.flatMap_cons, List.zip_append hfv.symm, List.filter_append,
          List.map_append, List.append_assoc]

/-- C12: whenever CollectImages returns with a nil error, the components of the
default-architecture configuration, taken in version-then-component order, are
split by a flag per component: the multi-arch list holds, in that order, one
entry image + "\n" for each flagged component, the single-arch list holds, in
that order, one entry (the single-arch line) for each other component, and the
two lists together have as many entries as there are components. -/
theorem CollectImages_partitions (createSingle createMulti : Option String)
    (edgexConfig edgeXConfigArm : EdgeXConfig) (lists : ImageLists)
    (h : CollectImages createSingle createMulti edgexConfig edgeXConfigArm
      = CollectImagesResult.returned none lists) :
    ∃ isMulti : List Bool,
      isMulti.length = (edgexConfig.Versions.flatMap (fun v => v.Components)).length ∧
      lists.multi =
        (((edgexConfig.Versions.flatMap (fun v => v.Components)).zip isMulti).filter
          (fun p => p.2)).map (fun p => p.1.image ++ "\n") ∧
      lists.single.map some =
        (((edgexConfig.Versions.flatMap (fun v => v.Components)).zip isMulti).filter
          (fun p => !p.2)).map (fun p => CollectImages.singleArchLine p.1.image) ∧
      lists.single.length + lists.multi.length
        = (edgexConfig.Versions.flatMap (fun v => v.Components)).length := by
  unfold CollectImages at h
  cases createSingle with
  | some err => simp at h
  | none =>
    cases createMulti with
    | some err => simp at h
    | none =>
      simp only at h
      cases hfold : edgexConfig.Versions.enum.foldlM
          (fun lists iv => CollectImages.version edgeXConfigArm.Versions lists iv.1 iv.2)
          ⟨[], []⟩ with
      | none => simp [hfold] at h
      | some out =>
        simp only [hfold, CollectImagesResult.returned.injEq, true_and] at h
        subst h
        obtain ⟨flags, hlen, hmulti, hsingle⟩ :=
          versions_partition edgeXConfigArm.Versions edgexConfig.Versions 0 ⟨[], []⟩ out hfold
        simp only [List.nil_append, List.map_nil] at hmulti hsingle
        refine ⟨flags, hlen, hmulti, hsingle, ?_⟩
        have hs : out.single.length = (out.single.map some).length := by simp
        have hz : ((edgexConfig.Versions.flatMap (fun v => v.Components)).zip flags).length
            = (edgexConfig.Versions.flatMap (fun v => v.Components)).length := by
          simp [List.length_zip, hlen]
        rw [hs, hsingle, hmulti, List.length_map, List.length_map, ← hz,
          List.length_eq_length_filter_add (fun p : Component × Bool => p.2)
            (l := (edgexConfig.Versions.flatMap (fun v => v.Components)).zip flags)]
        omega

theorem CollectImages_partitions_witness :
    ∃ isMulti : List Bool,
      isMulti.length = (exampleConfig.Versions.flatMap (fun v => v.Components)).length ∧
      (⟨["edgexfoundry/device-virtual:2.1.0  edgexfoundry/device-virtual-arm64:2.1.0\n"],
          ["edgexfoundry/core-data:2.1.0\n"]⟩ : ImageLists).multi =
        (((exampleConfig.Versions.flatMap (fun v => v.Components)).zip isMulti).filter
          (fun p => p.2)).map (fun p => p.1.image ++ "\n") ∧
      (⟨["edgexfoundry/device-virtual:2.1.0  edgexfoundry/device-virtual-arm64:2.1.0\n"],
          ["edgexfoundry/core-data:2.1.0\n"]⟩ : ImageLists).single.map some =
        (((exampleConfig.Versions.flatMap (fun v => v.Components)).zip isMulti).filter
          (fun p => !p.2)).map (fun p => CollectImages.singleArchLine p.1.image) ∧
      (⟨["edgexfoundry/device-virtual:2.1.0  edgexfoundry/device-virtual-arm64:2.1.0\n"],
          ["edgexfoundry/core-data:2.1.0\n"]⟩ : ImageLists).single.length
        + (⟨["edgexfoundry/device-virtual:2.1.0  edgexfoundry/device-virtual-arm64:2.1.0\n"],
          ["edgexfoundry/core-data:2.1.0\n"]⟩ : ImageLists).multi.length
        = (exampleConfig.Versions.flatMap (fun v => v.Components)).length :=
  CollectImages_partitions none none exampleConfig exampleConfigArm
    ⟨["edgexfoundry/device-virtual:2.1.0  edgexfoundry/device-virtual-arm64:2.1.0\n"],
      ["edgexfoundry/core-data:2.1.0\n"]⟩ (by decide)

/-- C20, the code at a failing input: the two configurations are aligned (one
version with one component each), the default image edgexfoundry/device-virtual
has no ":" and is not among the secondary images, and CollectImages fails with
an index out of range (the index -1 of line 107). -/
theorem CollectImages_panics_on_untagged_image :
    List.Forall₂ (fun v va => v.Components.length = va.Components.length)
      [(⟨"jakarta", [⟨"edgexfoundry/device-virtual", []⟩], []⟩ : Version)]
      [(⟨"jakarta", [⟨"edgexfoundry/device-rest:2.1.0", []⟩], []⟩ : Version)] ∧
    CollectImages.singleArchLine "edgexfoundry/device-virtual" = none ∧
    CollectImages none none
        ⟨[⟨"jakarta", [⟨"edgexfoundry/device-virtual", []⟩], []⟩]⟩
        ⟨[⟨"jakarta", [⟨"edgexfoundry/device-rest:2.1.0", []⟩], []⟩]⟩
      = CollectImagesResult.indexOutOfRange := by
  decide

end Edgex

